import Mathlib

/-!
Verification of the multi-dialect SQL statement boundary scanner
(`splitStatements` and its dialect configuration table
`SQL_PARSER_CONFIGS`).  The TypeScript source is embedded shallowly:
strings become `List Char`, the mutable cursor of the scan loop becomes
the suffix of the input that remains to be read, and each of the
source's inner `while` loops becomes a structurally recursive helper
that returns the pair (characters consumed, characters remaining).
-/

set_option maxRecDepth 8000

namespace DataPeek

/-- The single-quote character, written by code so that no string or
character literal in this file needs to contain an apostrophe. -/
def sq : Char := Char.ofNat 39

/-- The backtick character. -/
def bq : Char := Char.ofNat 96

/-- The closed enumeration of supported database dialects
(`DatabaseType` in the source). -/
inductive DatabaseType where
  | postgresql
  | mysql
  | mssql
  | sqlite
deriving DecidableEq

/-- Configuration for database-specific parsing behaviour
(`SqlParserConfig` in the source): six independent boolean lexical
feature flags. -/
structure SqlParserConfig where
  dollarQuotes : Bool
  nestedBlockComments : Bool
  backtickIdentifiers : Bool
  backslashEscape : Bool
  hashLineComment : Bool
  bracketIdentifiers : Bool
deriving DecidableEq

/-- Pre-defined configurations for each database type
(`SQL_PARSER_CONFIGS` in the source).  Field order:
dollarQuotes, nestedBlockComments, backtickIdentifiers,
backslashEscape, hashLineComment, bracketIdentifiers. -/
def SQL_PARSER_CONFIGS : DatabaseType → SqlParserConfig
  | .postgresql => ⟨true, true, false, false, false, false⟩
  | .mysql => ⟨false, false, true, true, true, false⟩
  | .mssql => ⟨false, false, false, false, false, true⟩
  | .sqlite => ⟨false, false, true, false, false, true⟩

/-- JS `String.prototype.trim` on the character list of a statement
buffer (the source trims each completed buffer before emitting it);
modelled on the ASCII whitespace set of `Char.isWhitespace`. -/
def trimChars (s : List Char) : List Char :=
  ((s.dropWhile Char.isWhitespace).reverse.dropWhile Char.isWhitespace).reverse

/-- The inner `while` loop shared by the single-quote, double-quote,
backtick and bracket regions of `splitStatements`: scan for the closing
character `close`, treating a doubled `close` as literal and, when `bs`
is set (the `backslashEscape` flag, used only for single quotes), a
backslash followed by `close` as literal.  Returns (consumed chars,
remaining chars); an unterminated region consumes to end of input. -/
def consumeRegion (close : Char) (bs : Bool) : List Char → List Char × List Char
  | [] => ([], [])
  | [c] => ([c], [])
  | c :: c2 :: rest =>
    if c = close ∧ c2 = close then
      let p := consumeRegion close bs rest
      (c :: c2 :: p.1, p.2)
    else if bs ∧ c = '\\' ∧ c2 = close then
      let p := consumeRegion close bs rest
      (c :: c2 :: p.1, p.2)
    else if c = close then ([c], c2 :: rest)
    else
      let p := consumeRegion close bs (c2 :: rest)
      (c :: p.1, p.2)

/-- The tag-collection loop of the dollar-quote handler: starting just
after the opening `$`, greedily collect alphanumeric/underscore
characters and stop (inclusively) at the next `$`.  Returns (collected
tag characters after the opening `$`, remaining chars).  The tag is
valid exactly when the collected part ends with `$`. -/
def collectTag : List Char → List Char × List Char
  | [] => ([], [])
  | c :: rest =>
    if c = '$' then ([c], rest)
    else if c.isAlphanum ∨ c = '_' then
      let p := collectTag rest
      (c :: p.1, p.2)
    else ([], c :: rest)

/-- JS `String.prototype.indexOf(pat, from)` restricted to the suffix that
starts at `from`: the least index at which `pat` occurs as a prefix of
the corresponding suffix, if any. -/
def findSubstr (pat : List Char) : List Char → Option Nat
  | [] => if pat.isPrefixOf ([] : List Char) then some 0 else none
  | c :: rest =>
    if pat.isPrefixOf (c :: rest) then some 0
    else
      match findSubstr pat rest with
      | some n => some (n + 1)
      | none => none

/-- The body of the valid-dollar-quote case: search forward for the
literal close tag; on a hit consume through the end of the close tag,
otherwise consume all remaining input.  Returns (consumed, remaining). -/
def dollarConsume (tag : List Char) (s : List Char) : List Char × List Char :=
  match findSubstr tag s with
  | some k => (s.take (k + tag.length), s.drop (k + tag.length))
  | none => (s, [])

/-- The line-comment loop (`#` and `--` comments): consume up to but
not including the next newline, or to end of input. -/
def consumeToNewline : List Char → List Char × List Char
  | [] => ([], [])
  | c :: rest =>
    if c = '\n' then ([], c :: rest)
    else
      let p := consumeToNewline rest
      (c :: p.1, p.2)

/-- The nested block-comment loop (postgres), starting just after the
opening `/*` with the given depth: `/*` increments the depth, `*/`
decrements it, the loop stops when the depth reaches 0 or input ends. -/
def consumeNestedComment (d : Nat) : List Char → List Char × List Char
  | [] => ([], [])
  | [c] => if d = 0 then ([], [c]) else ([c], [])
  | c :: c2 :: rest =>
    if d = 0 then ([], c :: c2 :: rest)
    else if c = '/' ∧ c2 = '*' then
      let p := consumeNestedComment (d + 1) rest
      (c :: c2 :: p.1, p.2)
    else if c = '*' ∧ c2 = '/' then
      let p := consumeNestedComment (d - 1) rest
      (c :: c2 :: p.1, p.2)
    else
      let p := consumeNestedComment d (c2 :: rest)
      (c :: p.1, p.2)

/-- The flat block-comment loop (no nesting): the first `*/` closes the
comment; an unterminated comment consumes to end of input. -/
def consumeFlatComment : List Char → List Char × List Char
  | [] => ([], [])
  | [c] => ([c], [])
  | c :: c2 :: rest =>
    if c = '*' ∧ c2 = '/' then ([c, c2], rest)
    else
      let p := consumeFlatComment (c2 :: rest)
      (c :: p.1, p.2)

/-- One iteration of the source's top-level scan loop, dispatching on
the current character `c` (the remainder of the input is `rest`, the
statement buffer under construction is `cur`, the completed statements
are `st`).  Returns the new (remaining input, buffer, statements).
The branch order follows the source; an invalid dollar tag falls
through all later branches to the default append, exactly as the `$`
character does in the source (it matches none of the later guards). -/
def splitStep (cfg : SqlParserConfig) (c : Char) (rest : List Char)
    (cur : List Char) (st : List (List Char)) :
    List Char × List Char × List (List Char) :=
  if c = sq then
    let p := consumeRegion sq cfg.backslashEscape rest
    (p.2, cur ++ c :: p.1, st)
  else if c = '"' then
    let p := consumeRegion '"' false rest
    (p.2, cur ++ c :: p.1, st)
  else if cfg.backtickIdentifiers ∧ c = bq then
    let p := consumeRegion bq false rest
    (p.2, cur ++ c :: p.1, st)
  else if cfg.bracketIdentifiers ∧ c = '[' then
    let p := consumeRegion ']' false rest
    (p.2, cur ++ c :: p.1, st)
  else if cfg.dollarQuotes ∧ c = '$' ∧ (collectTag rest).1.getLast? = some '$' then
    let t := collectTag rest
    let tag := '$' :: t.1
    let q := dollarConsume tag t.2
    (q.2, cur ++ tag ++ q.1, st)
  else if cfg.hashLineComment ∧ c = '#' then
    let p := consumeToNewline rest
    (p.2, cur ++ c :: p.1, st)
  else if c = '-' ∧ rest.head? = some '-' then
    let p := consumeToNewline rest.tail
    (p.2, cur ++ c :: '-' :: p.1, st)
  else if c = '/' ∧ rest.head? = some '*' then
    let p :=
      if cfg.nestedBlockComments then consumeNestedComment 1 rest.tail
      else consumeFlatComment rest.tail
    (p.2, cur ++ c :: '*' :: p.1, st)
  else if c = ';' then
    (rest, [], if trimChars cur ≠ [] then st ++ [trimChars cur] else st)
  else
    (rest, cur ++ [c], st)

/-- The source's top-level `while` loop.  The fuel argument makes the
recursion structural; `splitStatements` supplies fuel equal to the
input length, which is always sufficient because every step consumes at
least one character (`splitStep_fst_suffix` below), so the fuel-expired
clause is unreachable from `splitStatements`. -/
def splitLoop (cfg : SqlParserConfig) :
    Nat → List Char → List Char → List (List Char) → List (List Char)
  | _, [], cur, st =>
    if trimChars cur ≠ [] then st ++ [trimChars cur] else st
  | 0, _ :: _, _, st => st
  | f + 1, c :: rest, cur, st =>
    let t := splitStep cfg c rest cur st
    splitLoop cfg f t.1 t.2.1 t.2.2

/-- The function `splitStatements(sql, dbType)` from the source: split SQL into
individual statements, respecting string literals and comments. -/
def splitStatements (sql : String) (dbType : DatabaseType) : List String :=
  (splitLoop (SQL_PARSER_CONFIGS dbType) sql.data.length sql.data [] []).map
    String.mk

/-- The function `createStatementSplitter(dbType)` from the source: the currying
convenience wrapper. -/
def createStatementSplitter (dbType : DatabaseType) : String → List String :=
  fun sql => splitStatements sql dbType

/-- The spec's dialect-configuration table (section 4.1), stated
independently of the source so that the source's table can be compared
against it.  Field order as in `SqlParserConfig`. -/
def specLexicalTable : DatabaseType → SqlParserConfig
  | .postgresql => ⟨true, true, false, false, false, false⟩
  | .mysql => ⟨false, false, true, true, true, false⟩
  | .mssql => ⟨false, false, false, false, false, true⟩
  | .sqlite => ⟨false, false, true, false, false, true⟩

/-- The round-trip reconstruction predicate: the text decomposes, in
order, into the given statements, separated and surrounded only by
separator semicolons and whitespace (the only characters the scanner
ever drops from its output). -/
def coveredBy : List (List Char) → List Char → Prop
  | [], t => ∀ c ∈ t, c = ';' ∨ c.isWhitespace = true
  | stm :: ss, t => ∃ pre rest, t = pre ++ stm ++ rest ∧
      (∀ c ∈ pre, c = ';' ∨ c.isWhitespace = true) ∧ coveredBy ss rest

/-- The separator-in-literal test input of the spec, built from
character lists so that no quote characters appear in string literals:
SELECT <q>;<q> AS x; SELECT 2;  with <q> the single-quote character. -/
def sepLiteralInput : String :=
  String.mk (['S', 'E', 'L', 'E', 'C', 'T', ' '] ++ [sq, ';', sq] ++
    [' ', 'A', 'S', ' ', 'x', ';', ' ', 'S', 'E', 'L', 'E', 'C', 'T', ' ', '2', ';'])

/-- The expected first statement of `sepLiteralInput`:
SELECT <q>;<q> AS x. -/
def sepLiteralFirst : String :=
  String.mk (['S', 'E', 'L', 'E', 'C', 'T', ' '] ++ [sq, ';', sq] ++
    [' ', 'A', 'S', ' ', 'x'])

/-- The unterminated-literal test input of the spec:
SELECT <q>abc  with <q> the single-quote character. -/
def unterminatedInput : String :=
  String.mk (['S', 'E', 'L', 'E', 'C', 'T', ' '] ++ [sq] ++ ['a', 'b', 'c'])

theorem consumeRegion_append (close : Char) (bs : Bool) (s : List Char) :
    (consumeRegion close bs s).1 ++ (consumeRegion close bs s).2 = s := by
  induction s using consumeRegion.induct close bs <;>
    (simp only [consumeRegion]; try split_ifs) <;> simp_all

theorem collectTag_append (s : List Char) :
    (collectTag s).1 ++ (collectTag s).2 = s := by
  induction s using collectTag.induct <;> simp_all [collectTag]

theorem consumeToNewline_append (s : List Char) :
    (consumeToNewline s).1 ++ (consumeToNewline s).2 = s := by
  induction s with
  | nil => rfl
  | cons c rest ih => by_cases h : c = '\n' <;> simp [consumeToNewline, h, ih]

theorem consumeNestedComment_append (d : Nat) (s : List Char) :
    (consumeNestedComment d s).1 ++ (consumeNestedComment d s).2 = s := by
  induction d, s using consumeNestedComment.induct <;>
    (simp only [consumeNestedComment]; try split_ifs) <;> simp_all

theorem consumeFlatComment_append (s : List Char) :
    (consumeFlatComment s).1 ++ (consumeFlatComment s).2 = s := by
  induction s using consumeFlatComment.induct <;>
    (simp only [consumeFlatComment]; try split_ifs) <;> simp_all

theorem findSubstr_some_starts (pat : List Char) :
    ∀ (s : List Char) (k : Nat), findSubstr pat s = some k → pat <+: s.drop k := by
  intro s
  induction s with
  | nil =>
    intro k h
    by_cases hp : pat.isPrefixOf ([] : List Char)
    · simp only [findSubstr, if_pos hp, Option.some.injEq] at h
      subst h
      simpa using List.isPrefixOf_iff_prefix.mp hp
    · simp [findSubstr, hp] at h
  | cons c rest ih =>
    intro k h
    by_cases hp : pat.isPrefixOf (c :: rest)
    · simp only [findSubstr, if_pos hp, Option.some.injEq] at h
      subst h
      simpa using List.isPrefixOf_iff_prefix.mp hp
    · simp only [findSubstr, if_neg hp] at h
      cases hf : findSubstr pat rest with
      | some n =>
        rw [hf] at h
        simp only [Option.some.injEq] at h
        subst h
        simpa using ih n hf
      | none => rw [hf] at h; exact absurd h (by simp)

theorem findSubstr_some_min (pat : List Char) :
    ∀ (s : List Char) (k : Nat), findSubstr pat s = some k →
      ∀ j < k, ¬ pat <+: s.drop j := by
  intro s
  induction s with
  | nil =>
    intro k h j hj
    by_cases hp : pat.isPrefixOf ([] : List Char)
    · simp only [findSubstr, if_pos hp, Option.some.injEq] at h
      omega
    · simp [findSubstr, hp] at h
  | cons c rest ih =>
    intro k h j hj
    by_cases hp : pat.isPrefixOf (c :: rest)
    · simp only [findSubstr, if_pos hp, Option.some.injEq] at h
      omega
    · simp only [findSubstr, if_neg hp] at h
      cases hf : findSubstr pat rest with
      | some n =>
        rw [hf] at h
        simp only [Option.some.injEq] at h
        subst h
        cases j with
        | zero =>
          simpa using fun hc => hp (List.isPrefixOf_iff_prefix.mpr hc)
        | succ j =>
          simpa using ih n hf j (by omega)
      | none => rw [hf] at h; exact absurd h (by simp)

theorem dollarConsume_append (tag s : List Char) :
    (dollarConsume tag s).1 ++ (dollarConsume tag s).2 = s := by
  unfold dollarConsume
  cases findSubstr tag s <;> simp

theorem dollarConsume_none (tag s : List Char) (h : findSubstr tag s = none) :
    dollarConsume tag s = (s, []) := by
  simp [dollarConsume, h]

theorem dollarConsume_some (tag s : List Char) (k : Nat)
    (h : findSubstr tag s = some k) :
    dollarConsume tag s = (s.take (k + tag.length), s.drop (k + tag.length)) := by
  simp [dollarConsume, h]

theorem splitStep_sQuote (cfg : SqlParserConfig) (c : Char)
    (rest cur : List Char) (st : List (List Char)) (h1 : c = sq) :
    splitStep cfg c rest cur st =
      ((consumeRegion sq cfg.backslashEscape rest).2,
        cur ++ c :: (consumeRegion sq cfg.backslashEscape rest).1, st) := by
  unfold splitStep
  rw [if_pos h1]

theorem splitStep_dQuote (cfg : SqlParserConfig) (c : Char)
    (rest cur : List Char) (st : List (List Char))
    (h1 : ¬ c = sq) (h2 : c = '"') :
    splitStep cfg c rest cur st =
      ((consumeRegion '"' false rest).2,
        cur ++ c :: (consumeRegion '"' false rest).1, st) := by
  unfold splitStep
  rw [if_neg h1, if_pos h2]

theorem splitStep_btick (cfg : SqlParserConfig) (c : Char)
    (rest cur : List Char) (st : List (List Char))
    (h1 : ¬ c = sq) (h2 : ¬ c = '"')
    (h3 : cfg.backtickIdentifiers = true ∧ c = bq) :
    splitStep cfg c rest cur st =
      ((consumeRegion bq false rest).2,
        cur ++ c :: (consumeRegion bq false rest).1, st) := by
  unfold splitStep
  rw [if_neg h1, if_neg h2, if_pos h3]

theorem splitStep_brack (cfg : SqlParserConfig) (c : Char)
    (rest cur : List Char) (st : List (List Char))
    (h1 : ¬ c = sq) (h2 : ¬ c = '"')
    (h3 : ¬ (cfg.backtickIdentifiers = true ∧ c = bq))
    (h4 : cfg.bracketIdentifiers = true ∧ c = '[') :
    splitStep cfg c rest cur st =
      ((consumeRegion ']' false rest).2,
        cur ++ c :: (consumeRegion ']' false rest).1, st) := by
  unfold splitStep
  rw [if_neg h1, if_neg h2, if_neg h3, if_pos h4]

theorem splitStep_dollar (cfg : SqlParserConfig) (c : Char)
    (rest cur : List Char) (st : List (List Char))
    (h1 : ¬ c = sq) (h2 : ¬ c = '"')
    (h3 : ¬ (cfg.backtickIdentifiers = true ∧ c = bq))
    (h4 : ¬ (cfg.bracketIdentifiers = true ∧ c = '['))
    (h5 : cfg.dollarQuotes = true ∧ c = '$' ∧
      (collectTag rest).1.getLast? = some '$') :
    splitStep cfg c rest cur st =
      ((dollarConsume ('$' :: (collectTag rest).1) (collectTag rest).2).2,
        cur ++ ('$' :: (collectTag rest).1) ++
          (dollarConsume ('$' :: (collectTag rest).1) (collectTag rest).2).1,
        st) := by
  unfold splitStep
  rw [if_neg h1, if_neg h2, if_neg h3, if_neg h4, if_pos h5]

theorem splitStep_hash (cfg : SqlParserConfig) (c : Char)
    (rest cur : List Char) (st : List (List Char))
    (h1 : ¬ c = sq) (h2 : ¬ c = '"')
    (h3 : ¬ (cfg.backtickIdentifiers = true ∧ c = bq))
    (h4 : ¬ (cfg.bracketIdentifiers = true ∧ c = '['))
    (h5 : ¬ (cfg.dollarQuotes = true ∧ c = '$' ∧
      (collectTag rest).1.getLast? = some '$'))
    (h6 : cfg.hashLineComment = true ∧ c = '#') :
    splitStep cfg c rest cur st =
      ((consumeToNewline rest).2,
        cur ++ c :: (consumeToNewline rest).1, st) := by
  unfold splitStep
  rw [if_neg h1, if_neg h2, if_neg h3, if_neg h4, if_neg h5, if_pos h6]

theorem splitStep_ddash (cfg : SqlParserConfig) (c : Char)
    (rest cur : List Char) (st : List (List Char))
    (h1 : ¬ c = sq) (h2 : ¬ c = '"')
    (h3 : ¬ (cfg.backtickIdentifiers = true ∧ c = bq))
    (h4 : ¬ (cfg.bracketIdentifiers = true ∧ c = '['))
    (h5 : ¬ (cfg.dollarQuotes = true ∧ c = '$' ∧
      (collectTag rest).1.getLast? = some '$'))
    (h6 : ¬ (cfg.hashLineComment = true ∧ c = '#'))
    (h7 : c = '-' ∧ rest.head? = some '-') :
    splitStep cfg c rest cur st =
      ((consumeToNewline rest.tail).2,
        cur ++ c :: '-' :: (consumeToNewline rest.tail).1, st) := by
  unfold splitStep
  rw [if_neg h1, if_neg h2, if_neg h3, if_neg h4, if_neg h5, if_neg h6,
    if_pos h7]

theorem splitStep_bComment (cfg : SqlParserConfig) (c : Char)
    (rest cur : List Char) (st : List (List Char))
    (h1 : ¬ c = sq) (h2 : ¬ c = '"')
    (h3 : ¬ (cfg.backtickIdentifiers = true ∧ c = bq))
    (h4 : ¬ (cfg.bracketIdentifiers = true ∧ c = '['))
    (h5 : ¬ (cfg.dollarQuotes = true ∧ c = '$' ∧
      (collectTag rest).1.getLast? = some '$'))
    (h6 : ¬ (cfg.hashLineComment = true ∧ c = '#'))
    (h7 : ¬ (c = '-' ∧ rest.head? = some '-'))
    (h8 : c = '/' ∧ rest.head? = some '*') :
    splitStep cfg c rest cur st =
      ((if cfg.nestedBlockComments = true then consumeNestedComment 1 rest.tail
          else consumeFlatComment rest.tail).2,
        cur ++ c :: '*' ::
          (if cfg.nestedBlockComments = true then consumeNestedComment 1 rest.tail
            else consumeFlatComment rest.tail).1, st) := by
  unfold splitStep
  rw [if_neg h1, if_neg h2, if_neg h3, if_neg h4, if_neg h5, if_neg h6,
    if_neg h7, if_pos h8]

theorem splitStep_other (cfg : SqlParserConfig) (c : Char)
    (rest cur : List Char) (st : List (List Char))
    (h1 : ¬ c = sq) (h2 : ¬ c = '"')
    (h3 : ¬ (cfg.backtickIdentifiers = true ∧ c = bq))
    (h4 : ¬ (cfg.bracketIdentifiers = true ∧ c = '['))
    (h5 : ¬ (cfg.dollarQuotes = true ∧ c = '$' ∧
      (collectTag rest).1.getLast? = some '$'))
    (h6 : ¬ (cfg.hashLineComment = true ∧ c = '#'))
    (h7 : ¬ (c = '-' ∧ rest.head? = some '-'))
    (h8 : ¬ (c = '/' ∧ rest.head? = some '*'))
    (h9 : ¬ c = ';') :
    splitStep cfg c rest cur st = (rest, cur ++ [c], st) := by
  unfold splitStep
  rw [if_neg h1, if_neg h2, if_neg h3, if_neg h4, if_neg h5, if_neg h6,
    if_neg h7, if_neg h8, if_neg h9]

theorem splitStep_semi (cfg : SqlParserConfig) (rest cur : List Char)
    (st : List (List Char)) :
    splitStep cfg ';' rest cur st =
      (rest, [], if trimChars cur ≠ [] then st ++ [trimChars cur] else st) := by
  unfold splitStep
  rw [if_neg (by decide), if_neg (by decide),
    if_neg (fun h => absurd h.2 (by decide)),
    if_neg (fun h => absurd h.2 (by decide)),
    if_neg (fun h => absurd h.2.1 (by decide)),
    if_neg (fun h => absurd h.2 (by decide)),
    if_neg (fun h => absurd h.1 (by decide)),
    if_neg (fun h => absurd h.1 (by decide)),
    if_pos rfl]

/-- One pass over the ten dispatch branches, proving at once every
step-level fact the loop-level lemmas need: the remaining input after a
step is a suffix of the old tail; the step's first two components do
not depend on the completed-statement accumulator, which is only ever
extended at the end; and a non-separator step moves characters from the
input to the buffer without loss and without emitting anything. -/
theorem splitStep_spec (cfg : SqlParserConfig) (c : Char)
    (rest cur : List Char) (st : List (List Char)) :
    (splitStep cfg c rest cur st).1 <:+ rest ∧
    (splitStep cfg c rest cur st).1 = (splitStep cfg c rest cur []).1 ∧
    (splitStep cfg c rest cur st).2.1 = (splitStep cfg c rest cur []).2.1 ∧
    (splitStep cfg c rest cur st).2.2 = st ++ (splitStep cfg c rest cur []).2.2 ∧
    (c ≠ ';' → (splitStep cfg c rest cur st).2.2 = st ∧
      (splitStep cfg c rest cur st).2.1 ++ (splitStep cfg c rest cur st).1 =
        cur ++ c :: rest) := by
  by_cases h1 : c = sq
  · rw [splitStep_sQuote cfg c rest cur st h1, splitStep_sQuote cfg c rest cur [] h1]
    exact ⟨⟨_, consumeRegion_append sq cfg.backslashEscape rest⟩, rfl, rfl,
      by simp, fun _ => ⟨rfl, by simp [List.append_assoc, consumeRegion_append]⟩⟩
  · by_cases h2 : c = '"'
    · rw [splitStep_dQuote cfg c rest cur st h1 h2,
        splitStep_dQuote cfg c rest cur [] h1 h2]
      exact ⟨⟨_, consumeRegion_append '"' false rest⟩, rfl, rfl,
        by simp, fun _ => ⟨rfl, by simp [List.append_assoc, consumeRegion_append]⟩⟩
    · by_cases h3 : cfg.backtickIdentifiers = true ∧ c = bq
      · rw [splitStep_btick cfg c rest cur st h1 h2 h3,
          splitStep_btick cfg c rest cur [] h1 h2 h3]
        exact ⟨⟨_, consumeRegion_append bq false rest⟩, rfl, rfl,
          by simp, fun _ => ⟨rfl, by simp [List.append_assoc, consumeRegion_append]⟩⟩
      · by_cases h4 : cfg.bracketIdentifiers = true ∧ c = '['
        · rw [splitStep_brack cfg c rest cur st h1 h2 h3 h4,
            splitStep_brack cfg c rest cur [] h1 h2 h3 h4]
          exact ⟨⟨_, consumeRegion_append ']' false rest⟩, rfl, rfl,
            by simp, fun _ => ⟨rfl, by simp [List.append_assoc, consumeRegion_append]⟩⟩
        · by_cases h5 : cfg.dollarQuotes = true ∧ c = '$' ∧
            (collectTag rest).1.getLast? = some '$'
          · rw [splitStep_dollar cfg c rest cur st h1 h2 h3 h4 h5,
              splitStep_dollar cfg c rest cur [] h1 h2 h3 h4 h5]
            refine ⟨List.IsSuffix.trans ⟨_, dollarConsume_append _ _⟩
              ⟨_, collectTag_append rest⟩, rfl, rfl, by simp, fun _ => ⟨rfl, ?_⟩⟩
            obtain ⟨-, rfl, -⟩ := h5
            simp [List.append_assoc, dollarConsume_append, collectTag_append]
          · by_cases h6 : cfg.hashLineComment = true ∧ c = '#'
            · rw [splitStep_hash cfg c rest cur st h1 h2 h3 h4 h5 h6,
                splitStep_hash cfg c rest cur [] h1 h2 h3 h4 h5 h6]
              exact ⟨⟨_, consumeToNewline_append rest⟩, rfl, rfl, by simp,
                fun _ => ⟨rfl, by simp [List.append_assoc, consumeToNewline_append]⟩⟩
            · by_cases h7 : c = '-' ∧ rest.head? = some '-'
              · rw [splitStep_ddash cfg c rest cur st h1 h2 h3 h4 h5 h6 h7,
                  splitStep_ddash cfg c rest cur [] h1 h2 h3 h4 h5 h6 h7]
                refine ⟨List.IsSuffix.trans ⟨_, consumeToNewline_append rest.tail⟩
                  (List.tail_suffix rest), rfl, rfl, by simp, fun _ => ⟨rfl, ?_⟩⟩
                obtain ⟨rfl, hh⟩ := h7
                cases rest with
                | nil => simp at hh
                | cons r rs =>
                  simp only [List.head?_cons, Option.some.injEq] at hh
                  subst hh
                  simp [List.append_assoc, consumeToNewline_append]
              · by_cases h8 : c = '/' ∧ rest.head? = some '*'
                · rw [splitStep_bComment cfg c rest cur st h1 h2 h3 h4 h5 h6 h7 h8,
                    splitStep_bComment cfg c rest cur [] h1 h2 h3 h4 h5 h6 h7 h8]
                  refine ⟨?_, rfl, rfl, by simp, fun _ => ⟨rfl, ?_⟩⟩
                  · refine List.IsSuffix.trans ?_ (List.tail_suffix rest)
                    cases hn : cfg.nestedBlockComments with
                    | true =>
                      simp only [hn, if_pos]
                      exact ⟨_, consumeNestedComment_append 1 rest.tail⟩
                    | false =>
                      simp only [hn, Bool.false_eq_true, if_false]
                      exact ⟨_, consumeFlatComment_append rest.tail⟩
                  · obtain ⟨rfl, hh⟩ := h8
                    cases rest with
                    | nil => simp at hh
                    | cons r rs =>
                      simp only [List.head?_cons, Option.some.injEq] at hh
                      subst hh
                      cases hn : cfg.nestedBlockComments <;>
                        simp [hn, List.append_assoc, consumeNestedComment_append,
                          consumeFlatComment_append]
                · by_cases h9 : c = ';'
                  · subst h9
                    rw [splitStep_semi cfg rest cur st, splitStep_semi cfg rest cur []]
                    refine ⟨List.suffix_refl rest, rfl, rfl, ?_,
                      fun hc => absurd rfl hc⟩
                    by_cases ht : trimChars cur ≠ [] <;> simp [ht]
                  · rw [splitStep_other cfg c rest cur st h1 h2 h3 h4 h5 h6 h7 h8 h9,
                      splitStep_other cfg c rest cur [] h1 h2 h3 h4 h5 h6 h7 h8 h9]
                    exact ⟨List.suffix_refl rest, rfl, rfl, by simp,
                      fun _ => ⟨rfl, by simp⟩⟩

theorem splitStep_fst_suffix (cfg : SqlParserConfig) (c : Char)
    (rest cur : List Char) (st : List (List Char)) :
    (splitStep cfg c rest cur st).1 <:+ rest :=
  (splitStep_spec cfg c rest cur st).1

theorem splitStep_fst_st (cfg : SqlParserConfig) (c : Char)
    (rest cur : List Char) (st : List (List Char)) :
    (splitStep cfg c rest cur st).1 = (splitStep cfg c rest cur []).1 :=
  (splitStep_spec cfg c rest cur st).2.1

theorem splitStep_buf_st (cfg : SqlParserConfig) (c : Char)
    (rest cur : List Char) (st : List (List Char)) :
    (splitStep cfg c rest cur st).2.1 = (splitStep cfg c rest cur []).2.1 :=
  (splitStep_spec cfg c rest cur st).2.2.1

theorem splitStep_out_st (cfg : SqlParserConfig) (c : Char)
    (rest cur : List Char) (st : List (List Char)) :
    (splitStep cfg c rest cur st).2.2 = st ++ (splitStep cfg c rest cur []).2.2 :=
  (splitStep_spec cfg c rest cur st).2.2.2.1

theorem splitStep_consume (cfg : SqlParserConfig) (c : Char)
    (rest cur : List Char) (st : List (List Char)) (h : c ≠ ';') :
    (splitStep cfg c rest cur st).2.2 = st ∧
    (splitStep cfg c rest cur st).2.1 ++ (splitStep cfg c rest cur st).1 =
      cur ++ c :: rest :=
  (splitStep_spec cfg c rest cur st).2.2.2.2 h

theorem splitLoop_nil (cfg : SqlParserConfig) (f : Nat) (cur : List Char)
    (st : List (List Char)) :
    splitLoop cfg f [] cur st =
      if trimChars cur ≠ [] then st ++ [trimChars cur] else st := by
  cases f <;> rfl

theorem splitLoop_succ (cfg : SqlParserConfig) (f : Nat) (c : Char)
    (rest cur : List Char) (st : List (List Char)) :
    splitLoop cfg (f + 1) (c :: rest) cur st =
      splitLoop cfg f (splitStep cfg c rest cur st).1
        (splitStep cfg c rest cur st).2.1 (splitStep cfg c rest cur st).2.2 := rfl

theorem splitLoop_shift (cfg : SqlParserConfig) :
    ∀ (f : Nat) (s cur : List Char) (st : List (List Char)),
      splitLoop cfg f s cur st = st ++ splitLoop cfg f s cur [] := by
  intro f
  induction f with
  | zero =>
    intro s cur st
    cases s with
    | nil => rw [splitLoop_nil, splitLoop_nil]; split_ifs <;> simp
    | cons c rest => simp [splitLoop]
  | succ f ih =>
    intro s cur st
    cases s with
    | nil => rw [splitLoop_nil, splitLoop_nil]; split_ifs <;> simp
    | cons c rest =>
      rw [splitLoop_succ, splitLoop_succ,
        splitStep_fst_st cfg c rest cur st, splitStep_buf_st cfg c rest cur st,
        splitStep_out_st cfg c rest cur st,
        ih ((splitStep cfg c rest cur []).1) ((splitStep cfg c rest cur []).2.1)
          (st ++ (splitStep cfg c rest cur []).2.2),
        ih ((splitStep cfg c rest cur []).1) ((splitStep cfg c rest cur []).2.1)
          ((splitStep cfg c rest cur []).2.2)]
      simp [List.append_assoc]

theorem splitLoop_fuel (cfg : SqlParserConfig) :
    ∀ (f g : Nat) (s cur : List Char) (st : List (List Char)),
      s.length ≤ f → s.length ≤ g →
      splitLoop cfg f s cur st = splitLoop cfg g s cur st := by
  intro f
  induction f with
  | zero =>
    intro g s cur st hf hg
    cases s with
    | nil => rw [splitLoop_nil, splitLoop_nil]
    | cons c rest => simp at hf
  | succ f ih =>
    intro g s cur st hf hg
    cases s with
    | nil => rw [splitLoop_nil, splitLoop_nil]
    | cons c rest =>
      cases g with
      | zero => simp at hg
      | succ g =>
        rw [splitLoop_succ, splitLoop_succ]
        have hs := List.IsSuffix.length_le (splitStep_fst_suffix cfg c rest cur st)
        simp only [List.length_cons] at hf hg
        exact ih g _ _ _ (by omega) (by omega)

theorem dropWhile_head?_false {α : Type _} (p : α → Bool) :
    ∀ (l : List α) (c : α), (l.dropWhile p).head? = some c → p c = false := by
  intro l
  induction l with
  | nil => intro c h; simp at h
  | cons a l ih =>
    intro c h
    rw [List.dropWhile_cons] at h
    by_cases hp : p a = true
    · rw [if_pos hp] at h; exact ih c h
    · rw [if_neg hp] at h
      simp only [List.head?_cons, Option.some.injEq] at h
      subst h
      simpa using hp

theorem dropWhile_eq_self_of_head {α : Type _} (p : α → Bool) (l : List α)
    (h : ∀ c, l.head? = some c → p c = false) : l.dropWhile p = l := by
  cases l with
  | nil => rfl
  | cons a l => rw [List.dropWhile_cons, if_neg (by simp [h a rfl])]

theorem trimChars_decomp (s : List Char) :
    ∃ a b, (∀ c ∈ a, c.isWhitespace = true) ∧ (∀ c ∈ b, c.isWhitespace = true) ∧
      s = a ++ trimChars s ++ b := by
  refine ⟨s.takeWhile Char.isWhitespace,
    ((s.dropWhile Char.isWhitespace).reverse.takeWhile Char.isWhitespace).reverse,
    fun c hc => List.mem_takeWhile_imp hc,
    fun c hc => List.mem_takeWhile_imp (List.mem_reverse.mp hc), ?_⟩
  calc s = s.takeWhile Char.isWhitespace ++ s.dropWhile Char.isWhitespace :=
        (List.takeWhile_append_dropWhile Char.isWhitespace s).symm
    _ = s.takeWhile Char.isWhitespace ++
        ((s.dropWhile Char.isWhitespace).reverse).reverse := by
          rw [List.reverse_reverse]
    _ = s.takeWhile Char.isWhitespace ++
        ((s.dropWhile Char.isWhitespace).reverse.takeWhile Char.isWhitespace ++
          (s.dropWhile Char.isWhitespace).reverse.dropWhile Char.isWhitespace).reverse := by
          rw [List.takeWhile_append_dropWhile]
    _ = s.takeWhile Char.isWhitespace ++
        (trimChars s ++
          ((s.dropWhile Char.isWhitespace).reverse.takeWhile Char.isWhitespace).reverse) := by
          rw [List.reverse_append]; rfl
    _ = s.takeWhile Char.isWhitespace ++ trimChars s ++
        ((s.dropWhile Char.isWhitespace).reverse.takeWhile Char.isWhitespace).reverse := by
          rw [List.append_assoc]

theorem trimChars_eq_nil_iff (s : List Char) :
    trimChars s = [] ↔ ∀ c ∈ s, c.isWhitespace = true := by
  constructor
  · intro h c hc
    obtain ⟨a, b, ha, hb, hs⟩ := trimChars_decomp s
    rw [h] at hs
    rw [hs] at hc
    simp only [List.append_nil, List.mem_append] at hc
    rcases hc with hc | hc
    exacts [ha c hc, hb c hc]
  · intro h
    unfold trimChars
    rw [List.dropWhile_eq_nil_iff.mpr h]
    rfl

theorem trimChars_trimChars (s : List Char) :
    trimChars (trimChars s) = trimChars s := by
  have hd1 : (trimChars s).dropWhile Char.isWhitespace = trimChars s := by
    apply dropWhile_eq_self_of_head
    intro c hc
    unfold trimChars at hc
    rw [List.head?_reverse] at hc
    have hvne : (s.dropWhile Char.isWhitespace).reverse.dropWhile
        Char.isWhitespace ≠ [] := by
      intro hv0
      rw [hv0] at hc; simp at hc
    obtain ⟨w, hw⟩ := List.dropWhile_suffix
      (l := (s.dropWhile Char.isWhitespace).reverse) Char.isWhitespace
    have h3 : (s.dropWhile Char.isWhitespace).head? = some c := by
      rw [← List.getLast?_reverse, ← hw,
        List.getLast?_append_of_ne_nil _ hvne]
      exact hc
    exact dropWhile_head?_false _ _ c h3
  have hd2 : (trimChars s).reverse.dropWhile Char.isWhitespace =
      (trimChars s).reverse := by
    apply dropWhile_eq_self_of_head
    intro c hc
    have hrev : (trimChars s).reverse =
        (s.dropWhile Char.isWhitespace).reverse.dropWhile Char.isWhitespace := by
      unfold trimChars; rw [List.reverse_reverse]
    rw [hrev] at hc
    exact dropWhile_head?_false _ _ c hc
  calc trimChars (trimChars s)
      = (((trimChars s).dropWhile Char.isWhitespace).reverse.dropWhile
          Char.isWhitespace).reverse := rfl
    _ = ((trimChars s).reverse.dropWhile Char.isWhitespace).reverse := by rw [hd1]
    _ = (trimChars s).reverse.reverse := by rw [hd2]
    _ = trimChars s := List.reverse_reverse _

theorem trimChars_within (s : List Char) : trimChars s <:+: s := by
  obtain ⟨a, b, -, -, hs⟩ := trimChars_decomp s
  exact ⟨a, b, hs.symm⟩

theorem coveredBy_prepend (ss : List (List Char)) (w t : List Char)
    (hw : ∀ c ∈ w, c = ';' ∨ c.isWhitespace = true) (h : coveredBy ss t) :
    coveredBy ss (w ++ t) := by
  cases ss with
  | nil =>
    intro c hc
    rcases List.mem_append.mp hc with hc | hc
    exacts [hw c hc, h c hc]
  | cons stm ss =>
    obtain ⟨pre, rest, ht, hpre, hrest⟩ := h
    refine ⟨w ++ pre, rest, ?_, ?_, hrest⟩
    · rw [ht]; simp [List.append_assoc]
    · intro c hc
      rcases List.mem_append.mp hc with hc | hc
      exacts [hw c hc, hpre c hc]

theorem coveredBy_flush (cur : List Char) :
    coveredBy (if trimChars cur ≠ [] then [trimChars cur] else []) cur := by
  by_cases ht : trimChars cur ≠ []
  · rw [if_pos ht]
    obtain ⟨a, b, ha, hb, hs⟩ := trimChars_decomp cur
    exact ⟨a, b, hs, fun c hc => Or.inr (ha c hc),
      fun c hc => Or.inr (hb c hc)⟩
  · rw [if_neg ht]
    push_neg at ht
    exact fun c hc => Or.inr ((trimChars_eq_nil_iff cur).mp ht c hc)

theorem splitLoop_coveredBy (cfg : SqlParserConfig) :
    ∀ (f : Nat) (s cur : List Char), s.length ≤ f →
      coveredBy (splitLoop cfg f s cur []) (cur ++ s) := by
  intro f
  induction f with
  | zero =>
    intro s cur hf
    have hs : s = [] := List.eq_nil_of_length_eq_zero (Nat.le_zero.mp hf)
    subst hs
    rw [splitLoop_nil]
    simpa using coveredBy_flush cur
  | succ f ih =>
    intro s cur hf
    cases s with
    | nil =>
      rw [splitLoop_nil]
      simpa using coveredBy_flush cur
    | cons c rest =>
      rw [splitLoop_succ]
      by_cases hc : c = ';'
      · subst hc
        rw [splitStep_semi]
        dsimp only
        rw [splitLoop_shift]
        by_cases ht : trimChars cur ≠ []
        · rw [if_pos ht]
          obtain ⟨a, b, ha, hb, hs⟩ := trimChars_decomp cur
          refine ⟨a, b ++ ';' :: rest, ?_, fun x hx => Or.inr (ha x hx), ?_⟩
          · nth_rewrite 1 [hs]
            simp [List.append_assoc]
          · have hcov := coveredBy_prepend (splitLoop cfg f rest [] [])
              (b ++ [';']) rest
              (fun x hx => by
                rcases List.mem_append.mp hx with hx | hx
                · exact Or.inr (hb x hx)
                · rw [List.mem_singleton.mp hx]; exact Or.inl rfl)
              (by simpa using ih rest [] (by simpa using hf))
            simpa [List.append_assoc] using hcov
        · rw [if_neg ht]
          push_neg at ht
          have hcov := coveredBy_prepend (splitLoop cfg f rest [] [])
            (cur ++ [';']) rest
            (fun x hx => by
              rcases List.mem_append.mp hx with hx | hx
              · exact Or.inr ((trimChars_eq_nil_iff cur).mp ht x hx)
              · rw [List.mem_singleton.mp hx]; exact Or.inl rfl)
            (by simpa using ih rest [] (by simpa using hf))
          simpa [List.append_assoc] using hcov
      · obtain ⟨hst, happ⟩ := splitStep_consume cfg c rest cur [] hc
        rw [hst]
        have hfuel : (splitStep cfg c rest cur []).1.length ≤ f := by
          have := List.IsSuffix.length_le (splitStep_fst_suffix cfg c rest cur [])
          simp only [List.length_cons] at hf
          omega
        have hcov := ih (splitStep cfg c rest cur []).1
          (splitStep cfg c rest cur []).2.1 hfuel
        rw [happ] at hcov
        exact hcov

theorem splitLoop_nil_mem (cfg : SqlParserConfig) (f : Nat)
    (cur stm : List Char) (hm : stm ∈ splitLoop cfg f [] cur []) :
    stm ≠ [] ∧ trimChars stm = stm ∧ stm <:+: cur := by
  rw [splitLoop_nil] at hm
  by_cases ht : trimChars cur ≠ []
  · rw [if_pos ht] at hm
    simp only [List.nil_append, List.mem_singleton] at hm
    subst hm
    exact ⟨ht, trimChars_trimChars cur, trimChars_within cur⟩
  · rw [if_neg ht] at hm
    simp at hm

theorem splitLoop_mem (cfg : SqlParserConfig) :
    ∀ (f : Nat) (s cur stm : List Char), s.length ≤ f →
      stm ∈ splitLoop cfg f s cur [] →
      stm ≠ [] ∧ trimChars stm = stm ∧ stm <:+: cur ++ s := by
  intro f
  induction f with
  | zero =>
    intro s cur stm hf hm
    have hs : s = [] := List.eq_nil_of_length_eq_zero (Nat.le_zero.mp hf)
    subst hs
    simpa using splitLoop_nil_mem cfg 0 cur stm hm
  | succ f ih =>
    intro s cur stm hf hm
    cases s with
    | nil => simpa using splitLoop_nil_mem cfg (f + 1) cur stm hm
    | cons c rest =>
      rw [splitLoop_succ] at hm
      by_cases hc : c = ';'
      · subst hc
        rw [splitStep_semi] at hm
        dsimp only at hm
        rw [splitLoop_shift] at hm
        rcases List.mem_append.mp hm with hm | hm
        · by_cases ht : trimChars cur ≠ []
          · rw [if_pos ht] at hm
            simp only [List.nil_append, List.mem_singleton] at hm
            subst hm
            refine ⟨ht, trimChars_trimChars cur, ?_⟩
            exact List.IsInfix.trans (trimChars_within cur)
              ⟨[], ';' :: rest, by simp⟩
          · rw [if_neg ht] at hm
            simp at hm
        · have hrec := ih rest [] stm (by simpa using hf) hm
          refine ⟨hrec.1, hrec.2.1, List.IsInfix.trans (by simpa using hrec.2.2) ?_⟩
          exact ⟨cur ++ [';'], [], by simp⟩
      · obtain ⟨hst, happ⟩ := splitStep_consume cfg c rest cur [] hc
        rw [hst] at hm
        have hfuel : (splitStep cfg c rest cur []).1.length ≤ f := by
          have := List.IsSuffix.length_le (splitStep_fst_suffix cfg c rest cur [])
          simp only [List.length_cons] at hf
          omega
        have hrec := ih (splitStep cfg c rest cur []).1
          (splitStep cfg c rest cur []).2.1 stm hfuel hm
        rw [happ] at hrec
        exact hrec

theorem splitStep_ws (cfg : SqlParserConfig) (c : Char) (rest cur : List Char)
    (st : List (List Char)) (hw : c.isWhitespace = true) :
    splitStep cfg c rest cur st = (rest, cur ++ [c], st) := by
  simp only [Char.isWhitespace, Bool.or_eq_true, decide_eq_true_eq] at hw
  rcases hw with ((rfl | rfl) | rfl) | rfl <;>
    exact splitStep_other cfg _ rest cur st (by decide) (by decide)
      (fun h => absurd h.2 (by decide)) (fun h => absurd h.2 (by decide))
      (fun h => absurd h.2.1 (by decide)) (fun h => absurd h.2 (by decide))
      (fun h => absurd h.1 (by decide)) (fun h => absurd h.1 (by decide))
      (by decide)

theorem splitLoop_ws (cfg : SqlParserConfig) :
    ∀ (f : Nat) (s cur : List Char) (st : List (List Char)),
      (∀ c ∈ s, c.isWhitespace = true) → (∀ c ∈ cur, c.isWhitespace = true) →
      splitLoop cfg f s cur st = st := by
  intro f
  induction f with
  | zero =>
    intro s cur st hs hcur
    cases s with
    | nil =>
      rw [splitLoop_nil, if_neg (fun h => h ((trimChars_eq_nil_iff cur).mpr hcur))]
    | cons c rest => rfl
  | succ f ih =>
    intro s cur st hs hcur
    cases s with
    | nil =>
      rw [splitLoop_nil, if_neg (fun h => h ((trimChars_eq_nil_iff cur).mpr hcur))]
    | cons c rest =>
      rw [splitLoop_succ, splitStep_ws cfg c rest cur st (hs c (by simp))]
      dsimp only
      refine ih rest (cur ++ [c]) st (fun x hx => hs x (by simp [hx])) ?_
      intro x hx
      rcases List.mem_append.mp hx with h | h
      · exact hcur x h
      · rw [List.mem_singleton.mp h]; exact hs c (by simp)

theorem consumeNestedComment_prepend (d : Nat) :
    ∀ (b s : List Char), (∀ c ∈ b, c ≠ '/' ∧ c ≠ '*') →
      consumeNestedComment (d + 1) (b ++ s) =
        (b ++ (consumeNestedComment (d + 1) s).1,
          (consumeNestedComment (d + 1) s).2) := by
  intro b
  induction b with
  | nil => intro s hb; simp
  | cons x b ih =>
    intro s hb
    have hx := hb x (by simp)
    cases hbs : b ++ s with
    | nil =>
      obtain ⟨hb0, hs0⟩ := List.append_eq_nil.mp hbs
      subst hb0; subst hs0
      simp [consumeNestedComment]
    | cons y t =>
      rw [List.cons_append, hbs]
      simp only [consumeNestedComment]
      rw [if_neg (Nat.succ_ne_zero d),
        if_neg (fun h => absurd h.1 hx.1),
        if_neg (fun h => absurd h.1 hx.2)]
      rw [← hbs, ih s (fun c hc => hb c (by simp [hc]))]
      simp

theorem consumeNestedComment_inner (b s : List Char)
    (hb : ∀ c ∈ b, c ≠ '/' ∧ c ≠ '*') :
    consumeNestedComment 1 ('/' :: '*' :: (b ++ '*' :: '/' :: s)) =
      ('/' :: '*' :: (b ++ '*' :: '/' :: (consumeNestedComment 1 s).1),
        (consumeNestedComment 1 s).2) := by
  have h1 : consumeNestedComment 1 ('/' :: '*' :: (b ++ '*' :: '/' :: s)) =
      ('/' :: '*' :: (consumeNestedComment 2 (b ++ '*' :: '/' :: s)).1,
        (consumeNestedComment 2 (b ++ '*' :: '/' :: s)).2) := by
    cases hbs : b ++ '*' :: '/' :: s with
    | nil => simp at hbs
    | cons y t => simp [consumeNestedComment]
  have h3 : consumeNestedComment 2 ('*' :: '/' :: s) =
      ('*' :: '/' :: (consumeNestedComment 1 s).1,
        (consumeNestedComment 1 s).2) := by
    simp [consumeNestedComment]
  rw [h1, consumeNestedComment_prepend 1 b ('*' :: '/' :: s) hb, h3]

theorem consumeFlatComment_findSubstr :
    ∀ (s : List Char) (k : Nat), findSubstr ['*', '/'] s = some k →
      consumeFlatComment s = (s.take (k + 2), s.drop (k + 2)) := by
  intro s
  induction s using consumeFlatComment.induct with
  | case1 =>
    intro k h
    simp [findSubstr, List.isPrefixOf] at h
  | case2 c =>
    intro k h
    simp [findSubstr, List.isPrefixOf] at h
  | case3 c c2 rest hcc =>
    intro k h
    obtain ⟨rfl, rfl⟩ := hcc
    have hfs : findSubstr ['*', '/'] ('*' :: '/' :: rest) = some 0 := by
      unfold findSubstr
      rw [if_pos (by simp [List.isPrefixOf])]
    rw [hfs] at h
    simp only [Option.some.injEq] at h
    subst h
    simp [consumeFlatComment]
  | case4 c c2 rest hcc ih =>
    intro k h
    have hpre : ¬ (['*', '/'].isPrefixOf (c :: c2 :: rest) = true) := by
      intro hp
      obtain ⟨t, ht⟩ := List.isPrefixOf_iff_prefix.mp hp
      rw [List.cons_append, List.cons_append] at ht
      injection ht with ht1 ht2
      injection ht2 with ht2 _
      exact hcc ⟨ht1.symm, ht2.symm⟩
    unfold findSubstr at h
    rw [if_neg hpre] at h
    cases hf : findSubstr ['*', '/'] (c2 :: rest) with
    | none => rw [hf] at h; exact absurd h (by simp)
    | some n =>
      rw [hf] at h
      simp only [Option.some.injEq] at h
      subst h
      have harith : n + 1 + 2 = (n + 2) + 1 := by omega
      rw [harith, List.take_succ_cons, List.drop_succ_cons]
      simp only [consumeFlatComment]
      rw [if_neg hcc, ih n hf]

theorem splitStatements_mem (sql : String) (db : DatabaseType) (stm : String)
    (h : stm ∈ splitStatements sql db) :
    stm.data ≠ [] ∧ trimChars stm.data = stm.data ∧ stm.data <:+: sql.data := by
  unfold splitStatements at h
  rw [List.mem_map] at h
  obtain ⟨l, hl, rfl⟩ := h
  have hm := splitLoop_mem (SQL_PARSER_CONFIGS db) sql.data.length sql.data []
    l le_rfl hl
  exact ⟨hm.1, hm.2.1, hm.2.2⟩

/-- Claim C1: for every dialect in the enumeration, splitting the
input SELECT <q>;<q> AS x; SELECT 2;  (with <q> the single-quote
character) yields exactly the two statements SELECT <q>;<q> AS x and
SELECT 2, in that order: the semicolon inside the single-quoted string
literal is not treated as a statement separator. -/
theorem claim_C1 : ∀ db : DatabaseType,
    splitStatements sepLiteralInput db = [sepLiteralFirst, "SELECT 2"] := by
  intro db
  cases db <;> decide

/-- Claim C2: with the postgres dialect, the dollar-quote test input
splits into exactly two statements, the first spanning the whole
dollar-quoted block with its internal semicolons; and in general a
dollar-quoted region is closed exactly at the first forward occurrence
of the literal open tag (an exact repeat, found by substring search),
while if no close tag exists the region consumes all remaining
input. -/
theorem claim_C2 :
    splitStatements "DO $$ BEGIN SELECT 1; END; $$; SELECT 2;"
        DatabaseType.postgresql =
      ["DO $$ BEGIN SELECT 1; END; $$", "SELECT 2"] ∧
    (∀ (tag s : List Char) (k : Nat), findSubstr tag s = some k →
      tag <+: s.drop k ∧ (∀ j < k, ¬ tag <+: s.drop j) ∧
      dollarConsume tag s = (s.take (k + tag.length), s.drop (k + tag.length))) ∧
    (∀ tag s : List Char, findSubstr tag s = none →
      dollarConsume tag s = (s, [])) :=
  ⟨by decide,
   fun tag s k h => ⟨findSubstr_some_starts tag s k h,
     findSubstr_some_min tag s k h, dollarConsume_some tag s k h⟩,
   fun tag s h => dollarConsume_none tag s h⟩

/-- Witness for claim C2 at a concrete input: searching for the tag
$$ in ab$$c finds it at index 2 and the dollar-quote consumer stops
right after it. -/
theorem claim_C2_witness :
    ['$', '$'] <+: (['a', 'b', '$', '$', 'c'].drop 2) ∧
    (∀ j < 2, ¬ ['$', '$'] <+: (['a', 'b', '$', '$', 'c'].drop j)) ∧
    dollarConsume ['$', '$'] ['a', 'b', '$', '$', 'c'] =
      (['a', 'b', '$', '$', 'c'].take (2 + ['$', '$'].length),
        ['a', 'b', '$', '$', 'c'].drop (2 + ['$', '$'].length)) :=
  claim_C2.2.1 ['$', '$'] ['a', 'b', '$', '$', 'c'] 2 (by decide)

/-- Claim C3: the dialect configuration mapping is a total Lean
function on the dialect enumeration (no fallback case exists), and it
agrees with the spec's table entry by entry. -/
theorem claim_C3 : ∀ d : DatabaseType,
    SQL_PARSER_CONFIGS d = specLexicalTable d := by
  intro d
  cases d <;> rfl

/-- Claim C4: with postgres (nestedBlockComments set) the nested
block-comment input splits into exactly two statements and the inner
close marker does not end the outer comment; the depth mechanism makes
a balanced inner comment transparent at depth 1; with the flag unset
the first close marker (found by forward search) always ends the
comment, as the contrasting postgres/mysql splits of an input with a
semicolon between the two close markers show. -/
theorem claim_C4 :
    splitStatements "SELECT 1 /* outer /* inner */ still... */; SELECT 2;"
        DatabaseType.postgresql =
      ["SELECT 1 /* outer /* inner */ still... */", "SELECT 2"] ∧
    (∀ b s : List Char, (∀ c ∈ b, c ≠ '/' ∧ c ≠ '*') →
      consumeNestedComment 1 ('/' :: '*' :: (b ++ '*' :: '/' :: s)) =
        ('/' :: '*' :: (b ++ '*' :: '/' :: (consumeNestedComment 1 s).1),
          (consumeNestedComment 1 s).2)) ∧
    (∀ (s : List Char) (k : Nat), findSubstr ['*', '/'] s = some k →
      consumeFlatComment s = (s.take (k + 2), s.drop (k + 2))) ∧
    splitStatements "SELECT 1 /* a /* b */ ; c */ x; SELECT 2;"
        DatabaseType.postgresql =
      ["SELECT 1 /* a /* b */ ; c */ x", "SELECT 2"] ∧
    splitStatements "SELECT 1 /* a /* b */ ; c */ x; SELECT 2;"
        DatabaseType.mysql =
      ["SELECT 1 /* a /* b */", "c */ x", "SELECT 2"] :=
  ⟨by decide, consumeNestedComment_inner, consumeFlatComment_findSubstr,
    by decide, by decide⟩

/-- Witness for claim C4 at a concrete input: in flat mode the comment
body ab*/cd is cut right after the first close marker. -/
theorem claim_C4_witness :
    consumeFlatComment ['a', 'b', '*', '/', 'c', 'd'] =
      (['a', 'b', '*', '/', 'c', 'd'].take (2 + 2),
        ['a', 'b', '*', '/', 'c', 'd'].drop (2 + 2)) :=
  claim_C4.2.2.1 ['a', 'b', '*', '/', 'c', 'd'] 2 (by decide)

/-- Counterexample to claim C5 as stated: the emitted statement for
the input --; (a line comment containing a semicolon) ends with the
semicolon character, so an emitted statement can have a trailing
statement-separator character when that character lies inside a
comment or literal region. -/
theorem claim_C5_counterexample :
    splitStatements "--;" DatabaseType.postgresql = ["--;"] ∧
    ("--;" : String).data.getLast? = some ';' :=
  ⟨by decide, by decide⟩

/-- Claim C5 (amended): every emitted statement is a non-empty,
surrounding-whitespace-trimmed contiguous substring of the input, and
the top-level separator semicolon that ends a statement is never
included in the emitted statement or the following buffer — but a
semicolon lying inside a quoted or commented region may be the final
character of an emitted statement. -/
theorem claim_C5 :
    (∀ (sql : String) (db : DatabaseType) (stm : String),
        stm ∈ splitStatements sql db →
        stm ≠ "" ∧ stm.data = trimChars stm.data ∧ stm.data <:+: sql.data) ∧
    (∀ (cfg : SqlParserConfig) (rest cur : List Char) (st : List (List Char)),
        splitStep cfg ';' rest cur st =
          (rest, [], if trimChars cur ≠ [] then st ++ [trimChars cur] else st)) := by
  refine ⟨?_, splitStep_semi⟩
  intro sql db stm h
  obtain ⟨h1, h2, h3⟩ := splitStatements_mem sql db stm h
  exact ⟨fun he => h1 (by rw [he]), h2.symm, h3⟩

/-- Witness for claim C5 at a concrete input. -/
theorem claim_C5_witness :
    ("SELECT 1" : String) ≠ "" ∧
    ("SELECT 1" : String).data = trimChars ("SELECT 1" : String).data ∧
    ("SELECT 1" : String).data <:+: ("SELECT 1;" : String).data :=
  claim_C5.1 "SELECT 1;" DatabaseType.postgresql "SELECT 1" (by decide)

/-- Claim C6: no empty string is ever emitted (a segment that is empty
after trimming is discarded), a comment-only trailing remainder after
the last separator yields no empty entry (it yields a non-empty entry
holding the comment text, since comments are retained rather than
stripped), and runs of empty segments are all dropped. -/
theorem claim_C6 :
    (∀ (sql : String) (db : DatabaseType) (stm : String),
        stm ∈ splitStatements sql db → stm ≠ "") ∧
    splitStatements "SELECT 1; --done" DatabaseType.postgresql =
      ["SELECT 1", "--done"] ∧
    splitStatements ";; SELECT 1; ; ;" DatabaseType.postgresql = ["SELECT 1"] :=
  ⟨fun sql db stm h he => (splitStatements_mem sql db stm h).1 (by rw [he]),
    by decide, by decide⟩

/-- Claim C7: for every dialect, splitting SELECT <q>abc (an
unterminated single-quoted literal) yields exactly one statement equal
to the full trimmed input; the unterminated literal is consumed to end
of text and retained verbatim, and the scanner (a total function into
a plain list, with no error channel) raises no error. -/
theorem claim_C7 : ∀ db : DatabaseType,
    splitStatements unterminatedInput db = [unterminatedInput] := by
  intro db
  cases db <;> decide

/-- Claim C8: for every input and dialect the emitted statements occur
in order as disjoint contiguous substrings of the input, and every
character the scanner drops between, before or after them is either a
separator semicolon or whitespace — the content-preservation fact
behind the round-trip reconstruction property. -/
theorem claim_C8 : ∀ (sql : String) (db : DatabaseType),
    coveredBy ((splitStatements sql db).map String.data) sql.data := by
  intro sql db
  have h := splitLoop_coveredBy (SQL_PARSER_CONFIGS db) sql.data.length
    sql.data [] le_rfl
  unfold splitStatements
  rw [List.map_map]
  have hcomp : String.data ∘ String.mk = id := funext fun l => rfl
  rw [hcomp, List.map_id]
  simpa using h

/-- Claim C9: the scan advances strictly at every step (the remaining
input after one dispatch on a non-empty input is a suffix of its tail,
hence strictly shorter), and the loop is insensitive to any fuel bound
of at least the input length — the single forward pass terminates
within input-length steps; the function itself is total and returns a
plain list, so it never fails. -/
theorem claim_C9 :
    (∀ (cfg : SqlParserConfig) (c : Char) (rest cur : List Char)
        (st : List (List Char)), (splitStep cfg c rest cur st).1 <:+ rest) ∧
    (∀ (cfg : SqlParserConfig) (c : Char) (rest cur : List Char)
        (st : List (List Char)),
        (splitStep cfg c rest cur st).1.length < (c :: rest).length) ∧
    (∀ (cfg : SqlParserConfig) (f g : Nat) (s cur : List Char)
        (st : List (List Char)), s.length ≤ f → s.length ≤ g →
        splitLoop cfg f s cur st = splitLoop cfg g s cur st) :=
  ⟨fun cfg c rest cur st => splitStep_fst_suffix cfg c rest cur st,
   fun cfg c rest cur st => by
     have := List.IsSuffix.length_le (splitStep_fst_suffix cfg c rest cur st)
     simp only [List.length_cons]
     omega,
   fun cfg f g s cur st hf hg => splitLoop_fuel cfg f g s cur st hf hg⟩

/-- Witness for claim C9 at a concrete input: two different sufficient
fuel bounds give the same result. -/
theorem claim_C9_witness :
    splitLoop (SQL_PARSER_CONFIGS DatabaseType.postgresql) 5 ['a', ';', 'b'] [] [] =
      splitLoop (SQL_PARSER_CONFIGS DatabaseType.postgresql) 7 ['a', ';', 'b'] [] [] :=
  claim_C9.2.2 (SQL_PARSER_CONFIGS DatabaseType.postgresql) 5 7 ['a', ';', 'b']
    [] [] (by decide) (by decide)

/-- Claim C10: splitting the empty string returns the empty list, and
so does splitting any input made only of whitespace characters: no
statement entry is produced for whitespace-only input. -/
theorem claim_C10 :
    (∀ db : DatabaseType, splitStatements "" db = []) ∧
    (∀ (sql : String) (db : DatabaseType),
        (∀ c ∈ sql.data, c.isWhitespace = true) → splitStatements sql db = []) :=
  ⟨fun _ => rfl,
   fun sql db h => by
     unfold splitStatements
     rw [splitLoop_ws (SQL_PARSER_CONFIGS db) sql.data.length sql.data [] [] h
       (fun c hc => absurd hc (List.not_mem_nil c))]
     rfl⟩

/-- Witness for claim C10 at a concrete whitespace-only input. -/
theorem claim_C10_witness :
    splitStatements (String.mk [' ', ' ', '\n']) DatabaseType.mysql = [] :=
  claim_C10.2 (String.mk [' ', ' ', '\n']) DatabaseType.mysql (by decide)

end DataPeek
